import Mathlib

/-!
Shallow embedding of the `rational_deduction` Rust crate (src/lib.rs).

Multisets of terms are modelled as Lists (the crate's `V` is an ordered,
possibly-duplicated sequence with iteration and collection).  Mutation of
the `matched_indices` vector in `util::multiset_symmetric_difference_by`
is modelled by explicit state passing of a `List (item × Bool)` pairing
each right-hand slot with its consumed flag.  A `todo!()` panic is
modelled by an `Option` result that is always `none`.
-/

/-- Canonical Ratio Type: `RatioPair<V>` with fields `top` and `bot`. -/
structure RatioPair (V : Type u) where
  top : V
  bot : V
deriving Repr, DecidableEq

/-- One pass of the inner loop of `util::multiset_symmetric_difference_by`
for a single left item `l`: scan the right slots in order; at the first
slot whose item is `eq` to `l` and whose consumed flag is still `false`,
set the flag (the Rust closure returns `false` there, short-circuiting
`Iterator::all`) and answer `some` of the updated slots, meaning `l` is
cancelled.  If no such slot exists, answer `none`, meaning `l` survives. -/
def msdStep (eq : α → α → Bool) (l : α) : List (α × Bool) → Option (List (α × Bool))
  | [] => none
  | (r, m) :: rest =>
    if eq l r && !m then some ((r, true) :: rest)
    else (msdStep eq l rest).map (fun rest2 => (r, m) :: rest2)

/-- The outer loop of `util::multiset_symmetric_difference_by`: filter the
left sequence, threading the consumed flags of the right slots; a left
item is kept exactly when `msdStep` finds no fresh match for it. -/
def msdGo (eq : α → α → Bool) : List α → List (α × Bool) → List α × List (α × Bool)
  | [], rs => ([], rs)
  | l :: ls, rs =>
    match msdStep eq l rs with
    | some rs2 => msdGo eq ls rs2
    | none =>
      let p := msdGo eq ls rs
      (l :: p.1, p.2)

/-- `util::multiset_symmetric_difference_by(left, right, eq)`: returns the
left-only residue (left items with no counterpart consumed from the right)
and the right-only residue (right items whose consumed flag stayed
`false`, in order). -/
def multiset_symmetric_difference_by (left right : List α) (eq : α → α → Bool) :
    List α × List α :=
  let q := msdGo eq left (right.map (fun r => (r, false)))
  (q.1, (q.2.filter (fun p => !p.2)).map Prod.fst)

/-- `util::multiset_symmetric_difference`, using decidable equality for
Rust's `PartialEq::eq`. -/
def multiset_symmetric_difference [DecidableEq α] (left right : List α) :
    List α × List α :=
  multiset_symmetric_difference_by left right (fun a b => decide (a = b))

/-- `Ratio::pair_compose_by(top, bot, eq)`: cancel `top.bot` against
`bot.top` via the multiset symmetric difference; the new top is the
right-only residue followed by `top.top`, the new bot is the left-only
residue followed by `bot.bot`. -/
def pair_compose_by (top bot : RatioPair (List α)) (eq : α → α → Bool) :
    RatioPair (List α) :=
  let p := multiset_symmetric_difference_by top.bot bot.top eq
  RatioPair.mk (p.2 ++ top.top) (p.1 ++ bot.bot)

/-- `Ratio::pair_compose(top, bot)`: `pair_compose_by` with native
equality (`PartialEq::eq`). -/
def pair_compose [DecidableEq α] (top bot : RatioPair (List α)) :
    RatioPair (List α) :=
  pair_compose_by top bot (fun a b => decide (a = b))

/-- `Ratio::compose_by(ratios, eq)`: if the sequence is empty, the ratio
of two empty multisets (`V::from_iter(None)` twice); otherwise the left
fold of `pair_compose_by` over the rest, seeded with the first ratio. -/
def compose_by (ratios : List (RatioPair (List α))) (eq : α → α → Bool) :
    RatioPair (List α) :=
  match ratios with
  | [] => RatioPair.mk [] []
  | r :: rest => rest.foldl (fun t b => pair_compose_by t b eq) r

/-- `Ratio::compose(ratios)`: `compose_by` with native equality. -/
def compose [DecidableEq α] (ratios : List (RatioPair (List α))) :
    RatioPair (List α) :=
  compose_by ratios (fun a b => decide (a = b))

/-- `util::has_intersection_by(left, right, eq)` exactly as written in the
source: `left.into_iter().any(move |l| right.iter().all(|r| eq(&l, r)))`. -/
def has_intersection_by (left right : List α) (eq : α → α → Bool) : Bool :=
  left.any (fun l => right.all (fun r => eq l r))

/-- `Ratio::has_cancellation_by(top, bot, eq)`: the body discards its
arguments and executes `todo!()`, an unconditional panic; the panic is
modelled as `none`, a normal boolean return as `some`. -/
def has_cancellation_by (top bot : RatioPair (List α)) (eq : α → α → Bool) :
    Option Bool :=
  let _ := (top, bot, eq)
  none

/-- `Ratio::has_cancellation(top, bot)`: `has_cancellation_by` with
native equality. -/
def has_cancellation [DecidableEq α] (top bot : RatioPair (List α)) :
    Option Bool :=
  has_cancellation_by top bot (fun a b => decide (a = b))

/-- `Ratio::reverse`: swap top and bot. -/
def RatioPair.reverse (r : RatioPair V) : RatioPair V :=
  RatioPair.mk r.bot r.top

/-- The external `exprz` expression tree: an `Atom` leaf or a `Group` of
an ordered sequence of children (`E::Group` modelled as a list of nodes). -/
inductive Expr (α : Type u) where
  | Atom : α → Expr α
  | Group : List (Expr α) → Expr α

/-- `expr::RatioPairFromExprError`. -/
inductive RatioPairFromExprError where
  | NotGroup
  | BadGroupShape
  | MissingTopGroup
  | MissingBotGroup
  | MissingTopBotGroup
deriving Repr, DecidableEq

/-- `impl TryFrom<Expr<E>> for RatioPair<E::Group>`: an atom fails with
`NotGroup`; a group must yield exactly two children from its iterator
(`(Some(top), Some(bot), None)`), else `BadGroupShape`; both children
must be groups, with the three missing-group errors distinguishing which
side is an atom. -/
def ratioPairTryFromExpr : Expr α → Except RatioPairFromExprError (RatioPair (List (Expr α)))
  | .Atom _ => .error .NotGroup
  | .Group group =>
    match group with
    | [top, bot] =>
      match top, bot with
      | .Group t, .Group b => .ok (RatioPair.mk t b)
      | _, .Group _ => .error .MissingTopGroup
      | .Group _, _ => .error .MissingBotGroup
      | _, _ => .error .MissingTopBotGroup
    | _ => .error .BadGroupShape

/-- `impl From<RatioPair<E::Group>> for Expr<E>`: a group of the two
groups `top` and `bot`, in that order. -/
def exprFromRatioPair (ratio : RatioPair (List (Expr α))) : Expr α :=
  .Group [.Group ratio.top, .Group ratio.bot]

/-- Modelled from the spec: the external tree collaborator (`exprz`,
outside this repository) supplies a substitution operation on a node
(§6): given a mapping from atom to replacement node, produce a new node
with atoms replaced throughout the tree. -/
def Expr.substituteAtoms (f : α → Expr α) : Expr α → Expr α
  | .Atom a => f a
  | .Group g => .Group (g.attach.map (fun e => Expr.substituteAtoms f e.1))
decreasing_by
  have h := List.sizeOf_lt_of_mem e.2
  simp only [Expr.Group.sizeOf_spec]
  omega

/-- `expr::substitute(ratio, f)`: apply the node-level substitution to
every term of `top` and of `bot`, collecting into a new ratio. -/
def substitute (ratio : RatioPair (List (Expr α))) (f : α → Expr α) :
    RatioPair (List (Expr α)) :=
  RatioPair.mk
    (ratio.top.map (Expr.substituteAtoms f))
    (ratio.bot.map (Expr.substituteAtoms f))

/-- `expr::has_ratio_shape`: a group of exactly two children, both groups. -/
def has_ratio_shape : Expr α → Bool
  | .Group group =>
    match group with
    | [top, bot] => (match top with | .Group _ => true | _ => false)
        && (match bot with | .Group _ => true | _ => false)
    | _ => false
  | _ => false

/-- Number of consumed right slots. -/
def countMatched (rs : List (α × Bool)) : Nat :=
  (rs.filter (fun p => p.2)).length

lemma msdStep_some_spec (eq : α → α → Bool) (l : α) :
    ∀ rs rs2, msdStep eq l rs = some rs2 →
      rs2.map Prod.fst = rs.map Prod.fst ∧
      countMatched rs2 = countMatched rs + 1 ∧
      (rs2.filter (fun p => !p.2)).Sublist (rs.filter (fun p => !p.2))
  | [], rs2, h => by simp [msdStep] at h
  | (r, m) :: rest, rs2, h => by
    rw [msdStep] at h
    by_cases hc : (eq l r && !m) = true
    · have hm : m = false := by
        cases m
        · rfl
        · simp at hc
      subst hm
      rw [if_pos hc] at h
      injection h with h
      subst h
      refine ⟨rfl, ?_, ?_⟩
      · simp [countMatched, List.filter]
      · exact (List.Sublist.refl _).cons (r, false)
    · rw [if_neg hc] at h
      cases hs : msdStep eq l rest with
      | none => rw [hs] at h; simp at h
      | some rest2 =>
        rw [hs] at h
        injection h with h
        subst h
        obtain ⟨hmap, hcount, hsub⟩ := msdStep_some_spec eq l rest rest2 hs
        refine ⟨by simp [hmap], ?_, ?_⟩
        · cases m <;> simp [countMatched, List.filter_cons] at hcount ⊢ <;> omega
        · cases m
          · simpa [List.filter] using hsub.cons₂ (r, false)
          · simpa [List.filter] using hsub

lemma msdGo_spec (eq : α → α → Bool) :
    ∀ (ls : List α) (rs : List (α × Bool)),
      ((msdGo eq ls rs).1).Sublist ls ∧
      ((msdGo eq ls rs).2).map Prod.fst = rs.map Prod.fst ∧
      (msdGo eq ls rs).1.length + countMatched (msdGo eq ls rs).2
        = ls.length + countMatched rs ∧
      ((msdGo eq ls rs).2.filter (fun p => !p.2)).Sublist (rs.filter (fun p => !p.2))
  | [], rs => by simp [msdGo]
  | l :: ls, rs => by
    cases hstep : msdStep eq l rs with
    | some rs2 =>
      obtain ⟨hmap, hcount, hsub⟩ := msdStep_some_spec eq l rs rs2 hstep
      obtain ⟨ih1, ih2, ih3, ih4⟩ := msdGo_spec eq ls rs2
      rw [msdGo, hstep]
      exact ⟨ih1.cons l, by rw [ih2, hmap], by rw [ih3, hcount]; simp; omega,
        ih4.trans hsub⟩
    | none =>
      obtain ⟨ih1, ih2, ih3, ih4⟩ := msdGo_spec eq ls rs
      rw [msdGo, hstep]
      exact ⟨ih1.cons₂ l, ih2, by simp only [List.length_cons]; omega, ih4⟩

lemma countMatched_map_false (right : List α) :
    countMatched (right.map (fun r => (r, false))) = 0 := by
  induction right with
  | nil => rfl
  | cons r rest ih => simp [countMatched, List.filter] at ih ⊢

lemma filter_map_false (right : List α) :
    (right.map (fun r => (r, false))).filter (fun p => !p.2)
      = right.map (fun r => (r, false)) := by
  induction right with
  | nil => rfl
  | cons r rest ih => simp [List.filter, ih]

lemma length_filter_not_add_countMatched (rs : List (α × Bool)) :
    (rs.filter (fun p => !p.2)).length + countMatched rs = rs.length := by
  induction rs with
  | nil => rfl
  | cons p rest ih =>
    cases hp : p.2 <;> simp [countMatched, List.filter, hp] at ih ⊢ <;> omega

lemma msdGo_nil_right (eq : α → α → Bool) :
    ∀ ls : List α, msdGo eq ls ([] : List (α × Bool)) = (ls, [])
  | [] => rfl
  | l :: ls => by
    rw [msdGo]
    simp [msdStep, msdGo_nil_right eq ls]

lemma comp_fst_pair_false (l : List α) :
    l.map (Prod.fst ∘ fun r => (r, false)) = l := by
  induction l with
  | nil => rfl
  | cons a l ih => simp [ih]

/-- C1: evaluation of `util::has_intersection_by` at inputs witnessing its
divergence from the documented intersection query: `[1, 2]` and `[2, 3]`
share the element `2` yet the function returns `false`, while `[1]` and
`[]` share no element yet the function returns `true` (the inner loop
uses `all` where the documented query needs `any`). -/
theorem hasIntersectionByCodeEval :
    has_intersection_by [1, 2] [2, 3] (fun a b : Nat => a == b) = false
    ∧ ([1, 2] : List Nat).any (fun l => ([2, 3] : List Nat).any (fun r => l == r)) = true
    ∧ has_intersection_by [1] [] (fun a b : Nat => a == b) = true := by
  exact ⟨rfl, rfl, rfl⟩

/-- C2: `Ratio::has_cancellation_by` (and hence `has_cancellation`)
unconditionally signals the unrecoverable not-implemented failure — the
`todo!()` panic, modelled as `none` — for every pair of ratios and every
predicate; no input reaches a normal boolean return (`some`). -/
theorem hasCancellationAlwaysPanics (α : Type) [DecidableEq α]
    (top bot : RatioPair (List α)) (eq : α → α → Bool) :
    has_cancellation_by top bot eq = none
    ∧ has_cancellation top bot = none :=
  ⟨rfl, rfl⟩

/-- C3: `pair_compose_by` returns the ratio whose numerator is the
right-only residue of the multiset symmetric difference of
`top_ratio.bot` against `bot_ratio.top` (under `eq`) concatenated with
`top_ratio.top`, and whose denominator is the left-only residue of that
same symmetric difference concatenated with `bot_ratio.bot`, in exactly
that concatenation order. -/
theorem pairComposeByStructure (α : Type) (top bot : RatioPair (List α))
    (eq : α → α → Bool) :
    pair_compose_by top bot eq =
      RatioPair.mk
        ((multiset_symmetric_difference_by top.bot bot.top eq).2 ++ top.top)
        ((multiset_symmetric_difference_by top.bot bot.top eq).1 ++ bot.bot) :=
  rfl

/-- C4: composing an empty sequence of ratios returns (rather than fails)
the ratio of two empty multisets, for every element type; moreover that
ratio is a two-sided identity for `pair_compose_by`, so it is the
identity element of the composition monoid. -/
theorem composeEmptyIdentity (α : Type) [DecidableEq α] (eq : α → α → Bool) :
    compose ([] : List (RatioPair (List α))) = RatioPair.mk [] []
    ∧ compose_by ([] : List (RatioPair (List α))) eq = RatioPair.mk [] []
    ∧ (∀ r : RatioPair (List α),
        pair_compose_by (RatioPair.mk [] []) r eq = r
        ∧ pair_compose_by r (RatioPair.mk [] []) eq = r) := by
  refine ⟨rfl, rfl, fun r => ⟨?_, ?_⟩⟩
  · obtain ⟨t, b⟩ := r
    simp [pair_compose_by, multiset_symmetric_difference_by, msdGo,
      filter_map_false, comp_fst_pair_false]
  · obtain ⟨t, b⟩ := r
    simp [pair_compose_by, multiset_symmetric_difference_by, msdGo_nil_right]

/-- C5: for a non-empty sequence, `compose_by` is the left fold of
`pair_compose_by` seeded with the first ratio; in particular
`compose [r1, r2, r3]` equals
`pair_compose (pair_compose r1 r2) r3`. -/
theorem composeByLeftFold (α : Type) [DecidableEq α] :
    (∀ (r : RatioPair (List α)) (rest : List (RatioPair (List α)))
       (eq : α → α → Bool),
       compose_by (r :: rest) eq
         = rest.foldl (fun t b => pair_compose_by t b eq) r)
    ∧ (∀ r1 r2 r3 : RatioPair (List α),
       compose [r1, r2, r3] = pair_compose (pair_compose r1 r2) r3) :=
  ⟨fun _ _ _ => rfl, fun _ _ _ => rfl⟩

/-- C6: cancellation obeys multiset semantics — composing the ratio
`(top = [], bot = [x, x])` with the ratio `(top = [x], bot = [])` via
`pair_compose` yields `(top = [], bot = [x])`: exactly one occurrence of
`x` cancels and one survives. -/
theorem pairComposeMultisetCancellation (α : Type) [DecidableEq α] (x : α) :
    pair_compose (RatioPair.mk ([] : List α) [x, x]) (RatioPair.mk [x] []) =
      RatioPair.mk [] [x] := by
  simp [pair_compose, pair_compose_by, multiset_symmetric_difference_by,
    msdGo, msdStep]

/-- C7: tree-to-ratio conversion fails with exactly the error matching
the input's shape: an Atom yields `NotGroup`; a Group whose child count
is not two yields `BadGroupShape`; `[Atom, Group]` yields
`MissingTopGroup`; `[Group, Atom]` yields `MissingBotGroup`;
`[Atom, Atom]` yields `MissingTopBotGroup`; two Groups succeed. -/
theorem tryFromExprShapeErrors (α : Type) (a b : α) (t g : List (Expr α)) :
    ratioPairTryFromExpr (Expr.Atom a) = .error .NotGroup
    ∧ (∀ children : List (Expr α), children.length ≠ 2 →
        ratioPairTryFromExpr (.Group children) = .error .BadGroupShape)
    ∧ ratioPairTryFromExpr (.Group [.Atom a, .Group g]) = .error .MissingTopGroup
    ∧ ratioPairTryFromExpr (.Group [.Group g, .Atom a]) = .error .MissingBotGroup
    ∧ ratioPairTryFromExpr (.Group [.Atom a, .Atom b]) = .error .MissingTopBotGroup
    ∧ ratioPairTryFromExpr (.Group [.Group t, .Group g]) = .ok (RatioPair.mk t g) := by
  refine ⟨rfl, ?_, rfl, rfl, rfl, rfl⟩
  intro children h
  match children with
  | [] => rfl
  | [c] => rfl
  | [c1, c2] => exact absurd rfl h
  | c1 :: c2 :: c3 :: rest => rfl

/-- Witness for C7 at concrete inputs: a one-child group fails with
`BadGroupShape`. -/
theorem tryFromExprShapeErrorsWitness :
    ratioPairTryFromExpr (Expr.Group [Expr.Atom (0 : Nat)])
      = .error .BadGroupShape :=
  (tryFromExprShapeErrors Nat 0 0 [] []).2.1 [Expr.Atom 0] (by decide)

/-- C8: converting a ratio to a tree produces a Group of two Groups
preserving top and bot contents and order, and converting that tree back
to a ratio succeeds and yields the original ratio. -/
theorem ratioTreeRoundTrip (α : Type) (r : RatioPair (List (Expr α))) :
    exprFromRatioPair r = Expr.Group [Expr.Group r.top, Expr.Group r.bot]
    ∧ ratioPairTryFromExpr (exprFromRatioPair r) = .ok r := by
  obtain ⟨t, b⟩ := r
  exact ⟨rfl, rfl⟩

/-- C9: `expr::substitute` returns a ratio whose top has the same number
of terms as the input's top and whose bot has the same number of terms as
the input's bot, for every atom-to-expression mapping. -/
theorem substitutePreservesShape (α : Type) (r : RatioPair (List (Expr α)))
    (f : α → Expr α) :
    (substitute r f).top.length = r.top.length
    ∧ (substitute r f).bot.length = r.bot.length := by
  constructor <;> simp [substitute]

/-- C10: `util::multiset_symmetric_difference_by` removes equally many
items from each side — the length of `left` minus the length of the
left-only residue equals the length of `right` minus the length of the
right-only residue — and each residue is a sublist of its source
sequence, hence preserves its relative order. -/
theorem multisetSymmetricDifferenceConservative (α : Type)
    (left right : List α) (eq : α → α → Bool) :
    ((multiset_symmetric_difference_by left right eq).1).Sublist left
    ∧ ((multiset_symmetric_difference_by left right eq).2).Sublist right
    ∧ left.length - (multiset_symmetric_difference_by left right eq).1.length
        = right.length - (multiset_symmetric_difference_by left right eq).2.length := by
  obtain ⟨h1, h2, h3, h4⟩ := msdGo_spec eq left (right.map (fun r => (r, false)))
  rw [countMatched_map_false] at h3
  have hlen : (msdGo eq left (right.map (fun r => (r, false)))).2.length
      = right.length := by
    have hc := congrArg List.length h2
    simpa using hc
  have hfl := length_filter_not_add_countMatched
    (msdGo eq left (right.map (fun r => (r, false)))).2
  have hmsd : multiset_symmetric_difference_by left right eq
      = ((msdGo eq left (right.map (fun r => (r, false)))).1,
         (((msdGo eq left (right.map (fun r => (r, false)))).2.filter
            (fun p => !p.2)).map Prod.fst)) := rfl
  rw [hmsd]
  refine ⟨h1, ?_, ?_⟩
  · rw [filter_map_false] at h4
    have hs := h4.map Prod.fst
    simpa [comp_fst_pair_false] using hs
  · simp only [List.length_map]
    omega
